import Mathlib

/-!
Verification of the schema-migration engine of `src/src/database/migrate.js`
(class `DatabaseMigrator`), as a shallow embedding in Lean.

The external collaborators (the database connection object and the
filesystem) are modelled by an `Env` of response functions; the observable
effects of a run (the `schema_migrations` ledger, the executed migration
statements, the files read, the failure log line and the number of
`dbConnection.close()` calls) are threaded through a `MigState`.

Modelling boundary: the `SELECT` over the ledger table and
`dbConnection.close()` are modelled as always succeeding (the table was
just created idempotently, and connection-pool teardown is the database
collaborator's concern); console output is out of scope except for the
failure report line of `runMigration`, which is user-visible behaviour.
-/

namespace Agni

/-- An error thrown by the database collaborator (`dbConnection.query` /
`dbConnection.connect`); its payload is opaque to the engine. -/
structure DbError where
  msg : String
deriving Repr, DecidableEq

/-- An error thrown by a filesystem operation (`fs.readdir`, `fs.mkdir`,
`fs.readFile`). -/
structure FsError where
  msg : String
deriving Repr, DecidableEq

/-- A thrown JavaScript error: in this engine either a database error or a
filesystem error. -/
inductive JsError where
  | db : DbError → JsError
  | fs : FsError → JsError
deriving Repr, DecidableEq

/-- One row of the `schema_migrations` table, in insertion (`id`) order.
The table also has a `checksum VARCHAR(64)` column; the INSERT issued by
`runMigration` (migrate.js lines 76-81) supplies only `version`, `name` and
`execution_time`, so `checksum` is `none` (SQL NULL) unless set. -/
structure LedgerEntry where
  version : String
  name : String
  executionTime : Nat
  checksum : Option String
deriving Repr, DecidableEq

/-- The one console line modelled (all other console output is ignored):
`runMigration`'s catch block logs the failing migration's version, name and
the underlying error (migrate.js line 86) before rethrowing. -/
inductive LogEvent where
  | migrationFailed (version : String) (name : String) (err : JsError)
deriving Repr, DecidableEq

/-- Responses of the external collaborators during one run.  Functions are
keyed by file name (paths are relative to `migrationsPath`) or by statement
text; the model is deterministic, reflecting an unchanged Source and a
database whose answer to a given statement is stable across the run. -/
structure Env where
  /-- outcome of `dbConnection.connect()` -/
  connectErr : Option DbError
  /-- outcome of the `CREATE TABLE IF NOT EXISTS schema_migrations` query -/
  createTableErr : Option DbError
  /-- outcome of `fs.readdir(migrationsPath)` -/
  readdirResult : Except FsError (List String)
  /-- outcome of the fallback `fs.mkdir(migrationsPath, recursive)` -/
  mkdirErr : Option FsError
  /-- outcome of `fs.readFile(filePath, utf8)` per file -/
  readFile : String → Except FsError String
  /-- wall-clock milliseconds consumed by reading a file -/
  readTime : String → Nat
  /-- wall-clock milliseconds consumed by `dbConnection.query(stmt)` -/
  stmtTime : String → Nat
  /-- outcome of `dbConnection.query(stmt)` for a migration statement -/
  execStmt : String → Option DbError

/-- Observable state threaded through a run. -/
structure MigState where
  /-- rows of `schema_migrations`, in `id` (insertion) order -/
  ledger : List LedgerEntry
  /-- current wall-clock time in milliseconds (`Date.now()`) -/
  time : Nat
  /-- number of `dbConnection.close()` calls so far -/
  closes : Nat
  /-- files passed to `fs.readFile` by `runMigration`, in order -/
  readTrace : List String
  /-- migration statements passed to `dbConnection.query`, in order -/
  execTrace : List String
  /-- modelled console output -/
  log : List LogEvent
deriving Repr, DecidableEq

/-- The `version` column of the ledger rows, in insertion order: the result
of `getExecutedMigrations` (`SELECT version FROM schema_migrations ORDER BY id`). -/
def versions (l : List LedgerEntry) : List String := l.map (·.version)

/-- JavaScript `str.replace(pat, rep)` with a *string* pattern replaces only
the first occurrence; this is that operation on character lists. -/
def replaceFirstL (pat rep : List Char) : List Char → List Char
  | [] => []
  | c :: cs =>
    if pat.isPrefixOf (c :: cs) then rep ++ (c :: cs).drop pat.length
    else c :: replaceFirstL pat rep cs

/-- JavaScript `s.replace(pat, rep)` for a string pattern (first occurrence
only; `s` is returned unchanged when `pat` does not occur). -/
def replaceFirst (s pat rep : String) : String :=
  ⟨replaceFirstL pat.data rep.data s.data⟩

/-- `file.replace('.sql', '')` — the version derived from a file name
(migrate.js line 104). -/
def versionOf (file : String) : String := replaceFirst file ".sql" ""

/-- The characters matched by the JavaScript regex class `\s`, restricted to
the ASCII range (the Unicode space characters it also matches play no role
in this development). -/
def isWsChar (c : Char) : Bool :=
  c = ' ' || c = '\t' || c = '\n' || c = '\r' || c = '\x0b' || c = '\x0c'

/-- JavaScript `String.prototype.trim()`: strip leading and trailing
whitespace. -/
def trimL (l : List Char) : List Char :=
  ((l.dropWhile isWsChar).reverse.dropWhile isWsChar).reverse

/-- `trim` at the string level. -/
def trimStr (s : String) : String := ⟨trimL s.data⟩

/-- Worker for JavaScript `split(';')`: accumulate the current field in
reverse, emitting a field at each separator. -/
def splitSemisGo (cur : List Char) : List Char → List (List Char)
  | [] => [cur.reverse]
  | c :: cs =>
    if c = ';' then cur.reverse :: splitSemisGo [] cs
    else splitSemisGo (c :: cur) cs

/-- JavaScript `content.split(';')` (migrate.js line 62). -/
def splitSemis (s : String) : List String := (splitSemisGo [] s.data).map String.mk

/-- JavaScript `s.endsWith(suffix)`. -/
def jsEndsWith (s suffix : String) : Bool := suffix.data.isSuffixOf s.data

/-- The character map underlying `replace(/_/g, ' ')`. -/
def u2sChar (c : Char) : Char := if c = '_' then ' ' else c

/-- `replace(/_/g, ' ')`: every underscore becomes a space. -/
def underscoresToSpaces (s : String) : String := ⟨s.data.map u2sChar⟩

/-- `file.replace('.sql', '').replace(/_/g, ' ')` — the human name derived
from a file name (migrate.js line 105). -/
def nameOf (file : String) : String := underscoresToSpaces (versionOf file)

/-- `sqlContent.split(';').map(trim).filter(nonempty)` — the statement list
of a script body (migrate.js lines 61-64).  The redundant `if (statement.trim())`
guard at line 68 never rejects an element of this list, so each statement is
executed. -/
def stmtsOf (content : String) : List String :=
  ((splitSemis content).map trimStr).filter (fun s => s.length > 0)

/-- Code-point-wise lexicographic comparison of character lists — the order
JavaScript's default `Array.prototype.sort()` comparator induces on strings
(UTF-16 code-unit order, which agrees with code-point order on the
characters appearing in this development). -/
def lexLe : List Char → List Char → Bool
  | [], _ => true
  | _ :: _, [] => false
  | a :: as, b :: bs =>
    if a.toNat < b.toNat then true
    else if b.toNat < a.toNat then false
    else lexLe as bs

/-- Lexicographic `≤` on strings, as compared by JavaScript `sort()`. -/
def strLe (a b : String) : Bool := lexLe a.data b.data

/-- The sorting relation of `jsSort` in propositional form. -/
def strLeR (a b : String) : Prop := strLe a b = true

instance : DecidableRel strLeR :=
  fun a b => inferInstanceAs (Decidable (strLe a b = true))

/-- JavaScript `Array.prototype.sort()` on distinct-or-equal strings produces
the unique lexicographically ascending reordering; modelled by insertion
sort under `strLe`. -/
def jsSort (l : List String) : List String :=
  List.insertionSort strLeR l

/-- `getMigrationFiles` (migrate.js lines 43-54): list the directory, keep
names ending in `.sql`, sort; on *any* listing error fall back to
`fs.mkdir` and an empty list — but a failure of the `mkdir` itself
propagates out of the catch block. -/
def getMigrationFiles (env : Env) : Except FsError (List String) :=
  match env.readdirResult with
  | .ok files => .ok (jsSort (files.filter (fun f => jsEndsWith f ".sql")))
  | .error _ =>
    match env.mkdirErr with
    | none => .ok []
    | some e => .error e

/-- The INSERT into `schema_migrations` (migrate.js lines 76-81).  The
table's UNIQUE constraint on `version` (line 26) makes the insert fail when
the version is already present; no checksum is supplied. -/
def ledgerRecord (led : List LedgerEntry) (e : LedgerEntry) :
    Except DbError (List LedgerEntry) :=
  if (versions led).contains e.version then
    .error ⟨"duplicate key value violates unique constraint"⟩
  else .ok (led ++ [e])

/-- Execute the statements of one script in order (migrate.js lines 67-71),
stopping at the first database error. -/
def execStmts (env : Env) (st : MigState) : List String → MigState × Option DbError
  | [] => (st, none)
  | s :: rest =>
    let st1 := { st with
      execTrace := st.execTrace ++ [s]
      time := st.time + env.stmtTime s }
    match env.execStmt s with
    | some e => (st1, some e)
    | none => execStmts env st1 rest

/-- `runMigration(filePath, version, name)` (migrate.js lines 56-89): read
the file, split and execute its statements, then record the ledger row with
the measured elapsed time; on any failure log the version, name and error
and rethrow the underlying error. -/
def runMigration (env : Env) (st : MigState) (file version name : String) :
    MigState × Option JsError :=
  let startTime := st.time
  let st0 := { st with
    readTrace := st.readTrace ++ [file]
    time := st.time + env.readTime file }
  match env.readFile file with
  | .error e =>
    ({ st0 with log := st0.log ++ [.migrationFailed version name (.fs e)] },
      some (.fs e))
  | .ok content =>
    match execStmts env st0 (stmtsOf content) with
    | (st1, some e) =>
      ({ st1 with log := st1.log ++ [.migrationFailed version name (.db e)] },
        some (.db e))
    | (st1, none) =>
      let executionTime := st1.time - startTime
      match ledgerRecord st1.ledger ⟨version, name, executionTime, none⟩ with
      | .error e =>
        ({ st1 with log := st1.log ++ [.migrationFailed version name (.db e)] },
          some (.db e))
      | .ok led => ({ st1 with ledger := led }, none)

/-- The per-file loop of `migrate` (migrate.js lines 103-115): `executed` is
the snapshot of already-executed versions fetched *before* the loop; a file
whose derived version is in the snapshot is skipped, otherwise it is run and
a failure aborts the remaining files. -/
def migrateLoop (env : Env) (executed : List String) (st : MigState) :
    List String → MigState × Option JsError
  | [] => (st, none)
  | file :: rest =>
    if executed.contains (versionOf file) then migrateLoop env executed st rest
    else
      match runMigration env st file (versionOf file) (nameOf file) with
      | (st1, none) => migrateLoop env executed st1 rest
      | (st1, some e) => (st1, some e)

/-- `dbConnection.close()` (the `finally` of `migrate`, line 127). -/
def closeConn (st : MigState) : MigState := { st with closes := st.closes + 1 }

/-- `migrate()` (migrate.js lines 91-129): initialize (connect + ensure the
ledger table), snapshot the executed versions, list the script files, run
the loop; every path, success or failure, releases the connection once in
the `finally` block before the result is surfaced. -/
def migrate (env : Env) (st : MigState) : MigState × Option JsError :=
  let body : MigState × Option JsError :=
    match env.connectErr with
    | some e => (st, some (.db e))
    | none =>
      match env.createTableErr with
      | some e => (st, some (.db e))
      | none =>
        let executed := versions st.ledger
        match getMigrationFiles env with
        | .error e => (st, some (.fs e))
        | .ok files => migrateLoop env executed st files
  (closeConn body.1, body.2)

/-- Worker for `name.replace(/\s+/g, '_')`: each maximal run of whitespace
becomes a single underscore; `prev` records whether the previous character
was whitespace. -/
def normWsGo (prev : Bool) : List Char → List Char
  | [] => []
  | c :: cs =>
    if isWsChar c then
      if prev then normWsGo true cs else '_' :: normWsGo true cs
    else c :: normWsGo false cs

/-- `name.replace(/\s+/g, '_')` (migrate.js line 133). -/
def normalizeWs (s : String) : String := ⟨normWsGo false s.data⟩

/-- `new Date().toISOString().replace(/[^0-9]/g, '').slice(0, 14)`
(migrate.js line 132): the digits of the ISO timestamp, truncated to 14
(`YYYYMMDDHHMMSS`, i.e. down to the second). -/
def timestampOf (iso : String) : String := ⟨(iso.data.filter Char.isDigit).take 14⟩

/-- The file name produced by `createMigration(name)` (migrate.js line 133),
as a function of the current clock's ISO string. -/
def createMigrationFileName (iso name : String) : String :=
  timestampOf iso ++ "_" ++ normalizeWs name ++ ".sql"

/-- Separator-insensitive canonical form of a human-supplied migration name:
each maximal run of whitespace or underscores becomes one underscore.  Two
names are "equivalent" when their canonical forms are equal. -/
def canonGo (prev : Bool) : List Char → List Char
  | [] => []
  | c :: cs =>
    if isWsChar c || c = '_' then
      if prev then canonGo true cs else '_' :: canonGo true cs
    else c :: canonGo false cs

/-- Canonical form of a name (see `canonGo`). -/
def canonName (s : String) : String := ⟨canonGo false s.data⟩

/-- Modelled from the spec: "version is derived from file name without
extension" — the file name with its (last-dot) extension stripped.  Used
only to compare the spec's wording with the code's `versionOf`. -/
def stripExtension (s : String) : String :=
  if s.data.contains '.' then
    ⟨(s.data.reverse.dropWhile (fun c => c ≠ '.')).drop 1 |>.reverse⟩
  else s

/-- The pending set of a run: the discovered (filtered, sorted) files whose
derived version is not in the ledger snapshot (migrate.js line 107). -/
def pendingSet (env : Env) (st : MigState) : List String :=
  match getMigrationFiles env with
  | .ok files => files.filter (fun f => !(versions st.ledger).contains (versionOf f))
  | .error _ => []

/-- The CLI dispatch at the bottom of migrate.js (lines 157-180), combined
with Node.js process semantics: a promise rejection that is *handled* (here
by `.catch(console.error)`) leaves the process exit code untouched, so the
process exits 0; only `process.exit(1)` (missing name for `create`, unknown
command) yields a non-zero code.  `migrateFails` / `createFails` say whether
the corresponding promise rejects. -/
def cliExitCode (command : Option String) (nameArg : Option String)
    (migrateFails : Bool) (createFails : Bool) : Nat :=
  match command with
  | some "migrate" => 0
  | some "create" =>
    match nameArg with
    | none => 1
    | some _ => 0
  | _ => 1

/-- First failing statement of a list, with the successful prefix and the
untouched rest. -/
def firstFail (env : Env) : List String → Option (List String × String × List String × DbError)
  | [] => none
  | s :: rest =>
    match env.execStmt s with
    | some e => some ([], s, rest, e)
    | none => (firstFail env rest).map (fun x => (s :: x.1, x.2))

/-- The environment-determined outcome of attempting one script file:
its read fails, some statement fails, or all statements succeed. -/
inductive ScriptOutcome where
  | readErr (e : FsError)
  | stmtFail (pre : List String) (bad : String) (rest : List String) (e : DbError)
  | allOk (stmts : List String)
deriving Repr, DecidableEq

/-- Classify a script file by the environment alone (the run state does not
influence reading or statement execution). -/
def scriptOutcome (env : Env) (file : String) : ScriptOutcome :=
  match env.readFile file with
  | .error e => .readErr e
  | .ok content =>
    match firstFail env (stmtsOf content) with
    | some x => .stmtFail x.1 x.2.1 x.2.2.1 x.2.2.2
    | none => .allOk (stmtsOf content)

/-- A script whose read and statements all succeed. -/
def scriptOk (env : Env) (file : String) : Bool :=
  match scriptOutcome env file with
  | .allOk _ => true
  | _ => false

/-- A script that fails before its ledger row would be inserted (read error
or statement error) — a property of the environment alone. -/
def scriptFailsPure (env : Env) (file : String) : Bool :=
  match scriptOutcome env file with
  | .allOk _ => false
  | _ => true

/-- The statement list of a script file under an environment (empty when the
read fails). -/
def stmtsOfFile (env : Env) (file : String) : List String :=
  match env.readFile file with
  | .ok content => stmtsOf content
  | .error _ => []

/-- Total wall-clock milliseconds of executing a statement list. -/
def sumTimes (env : Env) (stmts : List String) : Nat :=
  (stmts.map env.stmtTime).sum

/-- The files of `files` whose derived version is not in the snapshot
`executed` — the subsequence the loop actually attempts. -/
def pendingOf (executed : List String) (files : List String) : List String :=
  files.filter (fun g => !executed.contains (versionOf g))

/-- The ledger identity `(version, name)` a file would be recorded under. -/
def entryVN (g : String) : String × String := (versionOf g, nameOf g)

/-- Does `pat` occur as a contiguous sublist? -/
def occursL (pat : List Char) : List Char → Bool
  | [] => pat.isPrefixOf []
  | c :: cs => pat.isPrefixOf (c :: cs) || occursL pat cs

/-- Does the string `pat` occur as a substring of `s`? -/
def occursIn (s pat : String) : Bool := occursL pat.data s.data

/-! ### Concrete environments and states used to instantiate the theorems -/

/-- The empty starting state: empty ledger, clock at 100, no closes, no
traces. -/
def st0 : MigState := ⟨[], 100, 0, [], [], []⟩

/-- Three pending scripts; the second one's middle statement fails. -/
def envFail : Env :=
  { connectErr := none
    createTableErr := none
    readdirResult := .ok ["20240103000000_c.sql", "20240101000000_a.sql", "20240102000000_b.sql"]
    mkdirErr := none
    readFile := fun f =>
      if f = "20240102000000_b.sql" then .ok "OK1; BOOM; NEVER" else .ok "OK0"
    readTime := fun _ => 2
    stmtTime := fun _ => 5
    execStmt := fun s => if s = "BOOM" then some ⟨"syntax error"⟩ else none }

/-- One healthy pending script. -/
def envOne : Env :=
  { connectErr := none
    createTableErr := none
    readdirResult := .ok ["20240101000000_create_users.sql"]
    mkdirErr := none
    readFile := fun _ => .ok "CREATE TABLE users (id INT); INSERT INTO users VALUES (1)"
    readTime := fun _ => 2
    stmtTime := fun _ => 5
    execStmt := fun _ => none }

/-- Three healthy pending scripts listed by the filesystem out of order. -/
def envOk : Env :=
  { connectErr := none
    createTableErr := none
    readdirResult := .ok ["20240103000000_c.sql", "20240101000000_a.sql", "20240102000000_b.sql"]
    mkdirErr := none
    readFile := fun _ => .ok "SELECT 1"
    readTime := fun _ => 2
    stmtTime := fun _ => 5
    execStmt := fun _ => none }

/-- `envOk` with the filesystem enumerating the same names in another order. -/
def envOkPerm : Env :=
  { envOk with
    readdirResult := .ok ["20240101000000_a.sql", "20240102000000_b.sql", "20240103000000_c.sql"] }

/-- Two healthy scripts whose file-name order differs from the order of the
versions derived from them: `a!.sql` sorts before `a.sql` but version `a`
sorts before version `a!`. -/
def envBang : Env :=
  { envOk with readdirResult := .ok ["a!.sql", "a.sql"] }

/-- The starting state of a database on which `envOne`'s script has already
been recorded. -/
def stApplied : MigState :=
  ⟨[⟨"20240101000000_create_users", "20240101000000 create users", 7, none⟩],
    100, 0, [], [], []⟩

/-- Missing migrations directory; the fallback `mkdir` succeeds. -/
def envNoDir : Env :=
  { envOk with
    readdirResult := .error ⟨"ENOENT: no such file or directory, scandir"⟩ }

/-- Unreadable migrations directory; the fallback `mkdir` also fails. -/
def envNoPerm : Env :=
  { envOk with
    readdirResult := .error ⟨"EACCES: permission denied, scandir"⟩
    mkdirErr := some ⟨"EACCES: permission denied, mkdir"⟩ }

section Lemmas

/-! ### Characterization of `execStmts` and `runMigration` -/

theorem execStmts_allOk (env : Env) :
    ∀ (stmts : List String) (st : MigState),
      (∀ s ∈ stmts, env.execStmt s = none) →
      execStmts env st stmts =
        ({ st with execTrace := st.execTrace ++ stmts
                   time := st.time + sumTimes env stmts }, none) := by
  intro stmts
  induction stmts with
  | nil =>
    intro st _
    simp [execStmts, sumTimes]
  | cons s rest ih =>
    intro st h
    have hs : env.execStmt s = none := h s (by simp)
    simp only [execStmts, hs]
    rw [ih _ (fun x hx => h x (by simp [hx]))]
    simp [sumTimes, Nat.add_assoc]

theorem execStmts_firstFail (env : Env) :
    ∀ (pre : List String) (st : MigState) (bad : String) (rest : List String)
      (e : DbError),
      (∀ s ∈ pre, env.execStmt s = none) → env.execStmt bad = some e →
      execStmts env st (pre ++ bad :: rest) =
        ({ st with execTrace := st.execTrace ++ pre ++ [bad]
                   time := st.time + sumTimes env (pre ++ [bad]) }, some e) := by
  intro pre
  induction pre with
  | nil =>
    intro st bad rest e _ hbad
    simp [execStmts, hbad, sumTimes]
  | cons s pre' ih =>
    intro st bad rest e h hbad
    have hs : env.execStmt s = none := h s (by simp)
    simp only [List.cons_append, execStmts, hs]
    rw [List.append_eq, ih _ _ _ _ (fun x hx => h x (by simp [hx])) hbad]
    simp [sumTimes, Nat.add_assoc]

theorem firstFail_none (env : Env) :
    ∀ stmts : List String, firstFail env stmts = none →
      ∀ s ∈ stmts, env.execStmt s = none := by
  intro stmts
  induction stmts with
  | nil => intro _ s hs; simp at hs
  | cons s rest ih =>
    intro h x hx
    rcases hes : env.execStmt s with _ | e
    · simp only [firstFail, hes] at h
      rcases List.mem_cons.mp hx with hx | hx
      · subst hx; exact hes
      · refine ih ?_ x hx
        rcases hff : firstFail env rest with _ | y
        · rfl
        · simp [hff] at h
    · simp [firstFail, hes] at h

theorem firstFail_some (env : Env) :
    ∀ (stmts pre : List String) (bad : String) (rest : List String) (e : DbError),
      firstFail env stmts = some (pre, bad, rest, e) →
      stmts = pre ++ bad :: rest ∧ (∀ s ∈ pre, env.execStmt s = none) ∧
        env.execStmt bad = some e := by
  intro stmts
  induction stmts with
  | nil => intro pre bad rest e h; simp [firstFail] at h
  | cons s tl ih =>
    intro pre bad rest e h
    rcases hes : env.execStmt s with _ | e0
    · simp only [firstFail, hes] at h
      rcases hff : firstFail env tl with _ | y
      · simp [hff] at h
      · obtain ⟨y1, y2, y3, y4⟩ := y
        simp only [hff, Option.map_some', Option.map_some, Option.some_inj, Prod.mk.injEq] at h
        obtain ⟨h1, h2, h3, h4⟩ := h
        subst h1 h2 h3 h4
        obtain ⟨ha, hb, hc⟩ := ih y1 y2 y3 y4 hff
        refine ⟨by simp [ha], ?_, hc⟩
        intro x hx
        rcases List.mem_cons.mp hx with hx | hx
        · subst hx; exact hes
        · exact hb x hx
    · simp only [firstFail, hes, Option.some_inj, Prod.mk.injEq] at h
      obtain ⟨h1, h2, h3, h4⟩ := h
      subst h1 h2 h3 h4
      exact ⟨rfl, by simp, hes⟩

/-- Success characterization: a script whose read and statements all succeed
and whose version is not yet in the ledger reads its file, executes all its
statements, and appends exactly one ledger row carrying the version, the
name, the elapsed wall-clock time, and no checksum. -/
theorem runMigration_allOk_char (env : Env) (st : MigState)
    (file v n : String) (stmts : List String)
    (hout : scriptOutcome env file = .allOk stmts)
    (hfresh : (versions st.ledger).contains v = false) :
    runMigration env st file v n =
      ({ st with
          readTrace := st.readTrace ++ [file]
          time := st.time + (env.readTime file + sumTimes env stmts)
          execTrace := st.execTrace ++ stmts
          ledger := st.ledger ++
            [⟨v, n, env.readTime file + sumTimes env stmts, none⟩] }, none) := by
  rcases hrf : env.readFile file with e | content
  · simp [scriptOutcome, hrf] at hout
  · have hstmts : stmtsOf content = stmts := by
      simp only [scriptOutcome, hrf] at hout
      rcases hff : firstFail env (stmtsOf content) with _ | y <;>
        simp [hff] at hout
      exact hout
    have hnone : firstFail env (stmtsOf content) = none := by
      simp only [scriptOutcome, hrf] at hout
      rcases hff : firstFail env (stmtsOf content) with _ | y <;>
        simp [hff] at hout
      rfl
    simp only [runMigration, hrf]
    rw [hstmts] at hnone ⊢
    rw [execStmts_allOk env stmts _ (firstFail_none env stmts hnone)]
    simp only [ledgerRecord, hfresh, Bool.false_eq_true, if_false]
    simp [Nat.add_sub_cancel_left, Nat.add_assoc]

/-- Read-failure characterization: the file is (attempted to be) loaded, no
statement runs, no row is recorded, the failure is logged with the version
and name, and the filesystem error is rethrown. -/
theorem runMigration_readErr_char (env : Env) (st : MigState)
    (file v n : String) (e : FsError)
    (hout : scriptOutcome env file = .readErr e) :
    runMigration env st file v n =
      ({ st with
          readTrace := st.readTrace ++ [file]
          time := st.time + env.readTime file
          log := st.log ++ [.migrationFailed v n (.fs e)] }, some (.fs e)) := by
  rcases hrf : env.readFile file with e' | content
  · simp only [scriptOutcome, hrf, ScriptOutcome.readErr.injEq] at hout
    subst hout
    simp [runMigration, hrf]
  · simp only [scriptOutcome, hrf] at hout
    rcases hff : firstFail env (stmtsOf content) with _ | y <;> simp [hff] at hout

/-- Statement-failure characterization: the file is loaded, the successful
prefix and the failing statement are executed, no row is recorded, the
failure is logged with the version and name, and the database error is
rethrown. -/
theorem runMigration_stmtFail_char (env : Env) (st : MigState)
    (file v n : String) (pre : List String) (bad : String) (rest : List String)
    (e : DbError)
    (hout : scriptOutcome env file = .stmtFail pre bad rest e) :
    runMigration env st file v n =
      ({ st with
          readTrace := st.readTrace ++ [file]
          time := st.time + (env.readTime file + sumTimes env (pre ++ [bad]))
          execTrace := st.execTrace ++ pre ++ [bad]
          log := st.log ++ [.migrationFailed v n (.db e)] }, some (.db e)) := by
  rcases hrf : env.readFile file with e' | content
  · simp [scriptOutcome, hrf] at hout
  · simp only [scriptOutcome, hrf] at hout
    rcases hff : firstFail env (stmtsOf content) with _ | y
    · simp [hff] at hout
    · obtain ⟨y1, y2, y3, y4⟩ := y
      simp only [hff, ScriptOutcome.stmtFail.injEq] at hout
      obtain ⟨h1, h2, h3, h4⟩ := hout
      subst h1 h2 h3 h4
      obtain ⟨ha, hb, hc⟩ := firstFail_some env _ _ _ _ _ hff
      simp only [runMigration, hrf, ha]
      rw [execStmts_firstFail env _ _ _ _ _ hb hc]
      simp [Nat.add_assoc, List.append_assoc]

/-- Duplicate-version characterization: when all statements succeed but the
version already exists in the ledger, the INSERT violates the UNIQUE
constraint; the failure is logged and the database error rethrown, and the
ledger is unchanged. -/
theorem runMigration_allOk_dup_char (env : Env) (st : MigState)
    (file v n : String) (stmts : List String)
    (hout : scriptOutcome env file = .allOk stmts)
    (hdup : (versions st.ledger).contains v = true) :
    runMigration env st file v n =
      ({ st with
          readTrace := st.readTrace ++ [file]
          time := st.time + (env.readTime file + sumTimes env stmts)
          execTrace := st.execTrace ++ stmts
          log := st.log ++ [.migrationFailed v n
            (.db ⟨"duplicate key value violates unique constraint"⟩)] },
        some (.db ⟨"duplicate key value violates unique constraint"⟩)) := by
  rcases hrf : env.readFile file with e | content
  · simp [scriptOutcome, hrf] at hout
  · have hstmts : stmtsOf content = stmts := by
      simp only [scriptOutcome, hrf] at hout
      rcases hff : firstFail env (stmtsOf content) with _ | y <;>
        simp [hff] at hout
      exact hout
    have hnone : firstFail env (stmtsOf content) = none := by
      simp only [scriptOutcome, hrf] at hout
      rcases hff : firstFail env (stmtsOf content) with _ | y <;>
        simp [hff] at hout
      rfl
    simp only [runMigration, hrf]
    rw [hstmts] at hnone ⊢
    rw [execStmts_allOk env stmts _ (firstFail_none env stmts hnone)]
    simp only [ledgerRecord, hdup, if_true]
    simp [Nat.add_assoc]

/-! ### Projection lemmas, by case analysis on the script outcome -/

theorem runMigration_closes (env : Env) (st : MigState) (file v n : String) :
    (runMigration env st file v n).1.closes = st.closes := by
  rcases hout : scriptOutcome env file with e | ⟨pre, bad, rest, e⟩ | stmts
  · rw [runMigration_readErr_char env st file v n e hout]
  · rw [runMigration_stmtFail_char env st file v n pre bad rest e hout]
  · by_cases hdup : (versions st.ledger).contains v = true
    · rw [runMigration_allOk_dup_char env st file v n stmts hout hdup]
    · have hfresh : (versions st.ledger).contains v = false := by simpa using hdup
      rw [runMigration_allOk_char env st file v n stmts hout hfresh]

theorem runMigration_readTrace (env : Env) (st : MigState) (file v n : String) :
    (runMigration env st file v n).1.readTrace = st.readTrace ++ [file] := by
  rcases hout : scriptOutcome env file with e | ⟨pre, bad, rest, e⟩ | stmts
  · rw [runMigration_readErr_char env st file v n e hout]
  · rw [runMigration_stmtFail_char env st file v n pre bad rest e hout]
  · by_cases hdup : (versions st.ledger).contains v = true
    · rw [runMigration_allOk_dup_char env st file v n stmts hout hdup]
    · have hfresh : (versions st.ledger).contains v = false := by simpa using hdup
      rw [runMigration_allOk_char env st file v n stmts hout hfresh]

/-- On any failure `runMigration` leaves the ledger untouched (in particular
nothing is recorded for the failing script). -/
theorem runMigration_err_ledger (env : Env) (st : MigState) (file v n : String)
    (e : JsError) (h : (runMigration env st file v n).2 = some e) :
    (runMigration env st file v n).1.ledger = st.ledger := by
  rcases hout : scriptOutcome env file with e0 | ⟨pre, bad, rest, e0⟩ | stmts
  · rw [runMigration_readErr_char env st file v n e0 hout]
  · rw [runMigration_stmtFail_char env st file v n pre bad rest e0 hout]
  · by_cases hdup : (versions st.ledger).contains v = true
    · rw [runMigration_allOk_dup_char env st file v n stmts hout hdup]
    · have hfresh : (versions st.ledger).contains v = false := by simpa using hdup
      rw [runMigration_allOk_char env st file v n stmts hout hfresh] at h
      cases h

/-- On success `runMigration` appends exactly one row, for the given version
and name, with no checksum; and its version was fresh. -/
theorem runMigration_ok_ledger (env : Env) (st : MigState) (file v n : String)
    (h : (runMigration env st file v n).2 = none) :
    ∃ d, (runMigration env st file v n).1.ledger = st.ledger ++ [⟨v, n, d, none⟩] ∧
      (versions st.ledger).contains v = false := by
  rcases hout : scriptOutcome env file with e0 | ⟨pre, bad, rest, e0⟩ | stmts
  · rw [runMigration_readErr_char env st file v n e0 hout] at h
    cases h
  · rw [runMigration_stmtFail_char env st file v n pre bad rest e0 hout] at h
    cases h
  · by_cases hdup : (versions st.ledger).contains v = true
    · rw [runMigration_allOk_dup_char env st file v n stmts hout hdup] at h
      cases h
    · have hfresh : (versions st.ledger).contains v = false := by simpa using hdup
      refine ⟨env.readTime file + sumTimes env stmts, ?_, hfresh⟩
      rw [runMigration_allOk_char env st file v n stmts hout hfresh]

theorem migrateLoop_cons_skip (env : Env) (executed : List String)
    (st : MigState) (file : String) (rest : List String)
    (h : executed.contains (versionOf file) = true) :
    migrateLoop env executed st (file :: rest) = migrateLoop env executed st rest := by
  have h2 : versionOf file ∈ executed := by simpa using h
  simp [migrateLoop, h2]

theorem migrateLoop_cons_run (env : Env) (executed : List String)
    (st : MigState) (file : String) (rest : List String)
    (h : executed.contains (versionOf file) = false) :
    migrateLoop env executed st (file :: rest) =
      match runMigration env st file (versionOf file) (nameOf file) with
      | (st1, none) => migrateLoop env executed st1 rest
      | (st1, some e) => (st1, some e) := by
  have h2 : versionOf file ∉ executed := by simpa using h
  simp [migrateLoop, h2]

theorem migrateLoop_closes (env : Env) (executed : List String) :
    ∀ (files : List String) (st : MigState),
      (migrateLoop env executed st files).1.closes = st.closes := by
  intro files
  induction files with
  | nil => intro st; rfl
  | cons file rest ih =>
    intro st
    simp only [migrateLoop]
    by_cases hsk : executed.contains (versionOf file) = true
    · rw [if_pos hsk]; exact ih st
    · rw [if_neg (by simpa using hsk)]
      rcases hrm : runMigration env st file (versionOf file) (nameOf file) with ⟨st1, r⟩
      have hc : st1.closes = st.closes := by
        have := runMigration_closes env st file (versionOf file) (nameOf file)
        rw [hrm] at this
        exact this
      rcases r with _ | e
      · rw [ih st1]; exact hc
      · exact hc

theorem migrateLoop_ledger_mono (env : Env) (executed : List String) :
    ∀ (files : List String) (st : MigState),
      ∃ Δ, (migrateLoop env executed st files).1.ledger = st.ledger ++ Δ := by
  intro files
  induction files with
  | nil => intro st; exact ⟨[], by simp [migrateLoop]⟩
  | cons file rest ih =>
    intro st
    simp only [migrateLoop]
    by_cases hsk : executed.contains (versionOf file) = true
    · rw [if_pos hsk]; exact ih st
    · rw [if_neg (by simpa using hsk)]
      rcases hrm : runMigration env st file (versionOf file) (nameOf file) with ⟨st1, r⟩
      rcases r with _ | e
      · obtain ⟨d, hld, _⟩ := runMigration_ok_ledger env st file (versionOf file) (nameOf file)
          (by rw [hrm])
        rw [hrm] at hld
        simp only [hrm]
        obtain ⟨Δ2, h2⟩ := ih st1
        exact ⟨⟨versionOf file, nameOf file, d, none⟩ :: Δ2,
          by rw [h2, hld]; simp⟩
      · have hle := runMigration_err_ledger env st file (versionOf file) (nameOf file) e
          (by rw [hrm])
        rw [hrm] at hle
        simp only [hrm]
        exact ⟨[], by simpa using hle⟩

theorem versions_append (l1 l2 : List LedgerEntry) :
    versions (l1 ++ l2) = versions l1 ++ versions l2 := by
  simp [versions]

theorem scriptOk_allOk (env : Env) (g : String) (h : scriptOk env g = true) :
    scriptOutcome env g = .allOk (stmtsOfFile env g) := by
  rcases hout : scriptOutcome env g with e | ⟨pre, bad, rest, e⟩ | stmts
  · simp [scriptOk, hout] at h
  · simp [scriptOk, hout] at h
  · have h2 : stmtsOfFile env g = stmts := by
      have hcopy := hout
      simp only [scriptOutcome] at hcopy
      rcases hrf : env.readFile g with e | content
      · simp [hrf] at hcopy
      · simp only [hrf] at hcopy
        rcases hff : firstFail env (stmtsOf content) with _ | y <;> simp [hff] at hcopy
        simp [stmtsOfFile, hrf, hcopy]
    rw [h2]

/-! ### The loop under a partial failure (claim C1) -/

theorem migrateLoop_partial_fail (env : Env) (executed : List String)
    (f : String) (sPre : List String) (bad : String) (sRest : List String)
    (e : DbError)
    (hfe : executed.contains (versionOf f) = false)
    (hout : scriptOutcome env f = .stmtFail sPre bad sRest e) :
    ∀ (pre post : List String) (st : MigState),
      (∀ g ∈ pendingOf executed pre, scriptOk env g = true) →
      (∀ g ∈ pendingOf executed pre,
        (versions st.ledger).contains (versionOf g) = false) →
      ((pendingOf executed pre).map versionOf).Nodup →
      (migrateLoop env executed st (pre ++ f :: post)).2 = some (.db e) ∧
      (migrateLoop env executed st (pre ++ f :: post)).1.ledger.map
          (fun en => (en.version, en.name)) =
        st.ledger.map (fun en => (en.version, en.name)) ++
          (pendingOf executed pre).map entryVN ∧
      (migrateLoop env executed st (pre ++ f :: post)).1.readTrace =
        st.readTrace ++ pendingOf executed pre ++ [f] ∧
      (migrateLoop env executed st (pre ++ f :: post)).1.execTrace =
        st.execTrace ++ ((pendingOf executed pre).map (stmtsOfFile env)).flatten ++
          sPre ++ [bad] ∧
      (migrateLoop env executed st (pre ++ f :: post)).1.log =
        st.log ++ [.migrationFailed (versionOf f) (nameOf f) (.db e)] := by
  intro pre
  induction pre with
  | nil =>
    intro post st _ _ _
    have hchar := runMigration_stmtFail_char env st f (versionOf f) (nameOf f)
      sPre bad sRest e hout
    rw [List.nil_append, migrateLoop_cons_run env executed st f post hfe, hchar]
    simp [pendingOf]
  | cons g pre' ih =>
    intro post st hok hfresh hnd
    by_cases hg : executed.contains (versionOf g) = true
    · have hgm : versionOf g ∈ executed := by simpa using hg
      have hpend : pendingOf executed (g :: pre') = pendingOf executed pre' := by
        simp [pendingOf, List.filter_cons, hgm]
      rw [hpend] at hok hfresh hnd ⊢
      have hloop : migrateLoop env executed st ((g :: pre') ++ f :: post) =
          migrateLoop env executed st (pre' ++ f :: post) := by
        rw [List.cons_append, migrateLoop_cons_skip env executed st g _ hg]
      rw [hloop]
      exact ih post st hok hfresh hnd
    · have hgf : executed.contains (versionOf g) = false := by simpa using hg
      have hgm : versionOf g ∉ executed := by simpa using hgf
      have hpend : pendingOf executed (g :: pre') = g :: pendingOf executed pre' := by
        simp [pendingOf, List.filter_cons, hgm]
      rw [hpend] at hok hfresh hnd
      have hokg : scriptOk env g = true := hok g (by simp)
      have hfreshg : (versions st.ledger).contains (versionOf g) = false :=
        hfresh g (by simp)
      have hchar := runMigration_allOk_char env st g (versionOf g) (nameOf g)
        (stmtsOfFile env g) (scriptOk_allOk env g hokg) hfreshg
      have hloop : migrateLoop env executed st ((g :: pre') ++ f :: post) =
          migrateLoop env executed
            ({ st with
                readTrace := st.readTrace ++ [g]
                time := st.time + (env.readTime g + sumTimes env (stmtsOfFile env g))
                execTrace := st.execTrace ++ stmtsOfFile env g
                ledger := st.ledger ++
                  [⟨versionOf g, nameOf g,
                    env.readTime g + sumTimes env (stmtsOfFile env g), none⟩] })
            (pre' ++ f :: post) := by
        rw [List.cons_append, migrateLoop_cons_run env executed st g _ hgf, hchar]
      obtain ⟨c1, c2, c3, c4, c5⟩ := ih post
        ({ st with
            readTrace := st.readTrace ++ [g]
            time := st.time + (env.readTime g + sumTimes env (stmtsOfFile env g))
            execTrace := st.execTrace ++ stmtsOfFile env g
            ledger := st.ledger ++
              [⟨versionOf g, nameOf g,
                env.readTime g + sumTimes env (stmtsOfFile env g), none⟩] })
        (fun x hx => hok x (by simp [hx]))
        (by
          intro x hx
          have h1 : versionOf x ∉ List.map LedgerEntry.version st.ledger := by
            simpa [versions] using hfresh x (by simp [hx])
          have h2 : versionOf x ≠ versionOf g := by
            intro hcontra
            have : versionOf g ∈ (pendingOf executed pre').map versionOf :=
              hcontra ▸ List.mem_map_of_mem versionOf hx
            exact (List.nodup_cons.mp hnd).1 this
          simp [versions, h1, h2])
        (List.nodup_cons.mp hnd).2
      rw [hpend, hloop]
      refine ⟨c1, ?_, ?_, ?_, ?_⟩
      · rw [c2]
        simp [entryVN]
      · rw [c3]
        simp
      · rw [c4]
        simp
      · rw [c5]

/-! ### The sort order: totality, transitivity, antisymmetry -/

theorem lexLe_total : ∀ a b : List Char, lexLe a b = true ∨ lexLe b a = true := by
  intro a
  induction a with
  | nil => intro b; left; rfl
  | cons x xs ih =>
    intro b
    cases b with
    | nil => right; rfl
    | cons y ys =>
      by_cases h1 : x.toNat < y.toNat
      · left; simp [lexLe, h1]
      · by_cases h2 : y.toNat < x.toNat
        · right; simp [lexLe, h2]
        · rcases ih ys with h | h
          · left; simp [lexLe, h1, h2, h]
          · right; simp [lexLe, h1, h2, h]

theorem lexLe_trans : ∀ a b c : List Char,
    lexLe a b = true → lexLe b c = true → lexLe a c = true := by
  intro a
  induction a with
  | nil => intro b c _ _; rfl
  | cons x xs ih =>
    intro b c hab hbc
    cases b with
    | nil => simp [lexLe] at hab
    | cons y ys =>
      cases c with
      | nil => simp [lexLe] at hbc
      | cons z zs =>
        by_cases hxy : x.toNat < y.toNat
        · by_cases hyz : y.toNat < z.toNat
          · simp [lexLe, Nat.lt_trans hxy hyz]
          · by_cases hzy : z.toNat < y.toNat
            · simp [lexLe, hyz, hzy] at hbc
            · have hyzeq : y.toNat = z.toNat := Nat.le_antisymm
                (Nat.not_lt.mp hzy) (Nat.not_lt.mp hyz)
              simp [lexLe, hyzeq ▸ hxy]
        · by_cases hyx : y.toNat < x.toNat
          · simp [lexLe, hxy, hyx] at hab
          · have hxyeq : x.toNat = y.toNat := Nat.le_antisymm
              (Nat.not_lt.mp hyx) (Nat.not_lt.mp hxy)
            by_cases hyz : y.toNat < z.toNat
            · simp [lexLe, hxyeq ▸ hyz]
            · by_cases hzy : z.toNat < y.toNat
              · simp [lexLe, hyz, hzy] at hbc
              · have h1 : lexLe xs ys = true := by
                  simpa [lexLe, hxy, hyx] using hab
                have h2 : lexLe ys zs = true := by
                  simpa [lexLe, hyz, hzy] using hbc
                have hxz : ¬ x.toNat < z.toNat := by omega
                have hzx : ¬ z.toNat < x.toNat := by omega
                simp [lexLe, hxz, hzx, ih ys zs h1 h2]

theorem lexLe_antisymm : ∀ a b : List Char,
    lexLe a b = true → lexLe b a = true → a = b := by
  intro a
  induction a with
  | nil =>
    intro b _ hba
    cases b with
    | nil => rfl
    | cons y ys => simp [lexLe] at hba
  | cons x xs ih =>
    intro b hab hba
    cases b with
    | nil => simp [lexLe] at hab
    | cons y ys =>
      by_cases hxy : x.toNat < y.toNat
      · have : ¬ y.toNat < x.toNat := by omega
        simp [lexLe, hxy, this] at hba
      · by_cases hyx : y.toNat < x.toNat
        · simp [lexLe, hxy, hyx] at hab
        · have hxyeq : x = y := Char.eq_of_val_eq
            (UInt32.toNat.inj (Nat.le_antisymm
              (Nat.not_lt.mp hyx) (Nat.not_lt.mp hxy)))

          have h1 : lexLe xs ys = true := by simpa [lexLe, hxy, hyx] using hab
          have h2 : lexLe ys xs = true := by simpa [lexLe, hxy, hyx] using hba
          rw [hxyeq, ih ys h1 h2]

instance : IsTotal String strLeR :=
  ⟨fun a b => lexLe_total a.data b.data⟩

instance : IsTrans String strLeR :=
  ⟨fun a b c => lexLe_trans a.data b.data c.data⟩

instance : IsAntisymm String strLeR :=
  ⟨fun a b hab hba => by
    cases a with
    | mk da =>
      cases b with
      | mk db =>
        exact congrArg String.mk (lexLe_antisymm da db hab hba)⟩

theorem jsSort_sorted (l : List String) : List.Sorted strLeR (jsSort l) :=
  List.sorted_insertionSort strLeR l

theorem jsSort_perm (l : List String) : (jsSort l).Perm l :=
  List.perm_insertionSort strLeR l

/-- `jsSort` depends only on the multiset of its input: the result on any
enumeration order of the same file names is the same sorted list. -/
theorem jsSort_eq_of_perm (l1 l2 : List String) (h : l1.Perm l2) :
    jsSort l1 = jsSort l2 :=
  List.eq_of_perm_of_sorted
    ((jsSort_perm l1).trans (h.trans (jsSort_perm l2).symm))
    (jsSort_sorted l1) (jsSort_sorted l2)

/-! ### The run depends on the directory listing only through the sorted file list -/

theorem execStmts_congr (env env2 : Env)
    (h6 : env2.stmtTime = env.stmtTime) (h7 : env2.execStmt = env.execStmt) :
    ∀ (l : List String) (st : MigState), execStmts env2 st l = execStmts env st l := by
  intro l
  induction l with
  | nil => intro st; rfl
  | cons s rest ih =>
    intro st
    simp only [execStmts, h6, h7]
    rcases env.execStmt s with _ | e
    · exact ih _
    · rfl

theorem runMigration_congr (env env2 : Env)
    (h4 : env2.readFile = env.readFile) (h5 : env2.readTime = env.readTime)
    (h6 : env2.stmtTime = env.stmtTime) (h7 : env2.execStmt = env.execStmt)
    (st : MigState) (file v n : String) :
    runMigration env2 st file v n = runMigration env st file v n := by
  simp only [runMigration, h4, h5]
  rcases hrf : env.readFile file with e | content
  · simp only [hrf]
  · simp only [hrf]
    rw [execStmts_congr env env2 h6 h7]

theorem migrateLoop_congr (env env2 : Env)
    (h4 : env2.readFile = env.readFile) (h5 : env2.readTime = env.readTime)
    (h6 : env2.stmtTime = env.stmtTime) (h7 : env2.execStmt = env.execStmt)
    (executed : List String) :
    ∀ (files : List String) (st : MigState),
      migrateLoop env2 executed st files = migrateLoop env executed st files := by
  intro files
  induction files with
  | nil => intro st; rfl
  | cons file rest ih =>
    intro st
    by_cases hsk : executed.contains (versionOf file) = true
    · rw [migrateLoop_cons_skip _ _ _ _ _ hsk, migrateLoop_cons_skip _ _ _ _ _ hsk,
        ih st]
    · have hskf : executed.contains (versionOf file) = false := by simpa using hsk
      rw [migrateLoop_cons_run _ _ _ _ _ hskf, migrateLoop_cons_run _ _ _ _ _ hskf,
        runMigration_congr env env2 h4 h5 h6 h7]
      rcases runMigration env st file (versionOf file) (nameOf file) with ⟨st1, r⟩
      rcases r with _ | e
      · exact ih st1
      · rfl

theorem getMigrationFiles_congr (env env2 : Env) (l l2 : List String)
    (h3 : env2.mkdirErr = env.mkdirErr)
    (hl : env.readdirResult = .ok l) (hl2 : env2.readdirResult = .ok l2)
    (hperm : l.Perm l2) :
    getMigrationFiles env2 = getMigrationFiles env := by
  simp only [getMigrationFiles, hl, hl2]
  exact congrArg Except.ok
    (jsSort_eq_of_perm _ _ ((hperm.filter _).symm))

/-! ### Traces of the loop -/

theorem runMigration_execTrace (env : Env) (st : MigState) (file v n : String) :
    ∃ Δ, (runMigration env st file v n).1.execTrace = st.execTrace ++ Δ ∧
      ∀ s ∈ Δ, s ∈ stmtsOfFile env file := by
  rcases hout : scriptOutcome env file with e0 | ⟨pre, bad, rest, e0⟩ | stmts
  · rw [runMigration_readErr_char env st file v n e0 hout]
    exact ⟨[], by simp, by simp⟩
  · rw [runMigration_stmtFail_char env st file v n pre bad rest e0 hout]
    refine ⟨pre ++ [bad], by simp, ?_⟩
    have hsplit : stmtsOfFile env file = pre ++ bad :: rest := by
      have hcopy := hout
      simp only [scriptOutcome] at hcopy
      rcases hrf : env.readFile file with e1 | content
      · simp [hrf] at hcopy
      · simp only [hrf] at hcopy
        rcases hff : firstFail env (stmtsOf content) with _ | y
        · simp [hff] at hcopy
        · obtain ⟨y1, y2, y3, y4⟩ := y
          simp only [hff, ScriptOutcome.stmtFail.injEq] at hcopy
          obtain ⟨h1, h2, h3, h4⟩ := hcopy
          subst h1 h2 h3 h4
          obtain ⟨ha, _, _⟩ := firstFail_some env _ _ _ _ _ hff
          simp [stmtsOfFile, hrf, ha]
    intro s hs
    rw [hsplit]
    rcases List.mem_append.mp hs with h | h
    · exact List.mem_append.mpr (Or.inl h)
    · simp at h
      simp [h]
  · have : stmtsOfFile env file = stmts := by
      have h2 := scriptOk_allOk env file (by simp [scriptOk, hout])
      rw [hout] at h2
      cases h2
      rfl
    by_cases hdup : (versions st.ledger).contains v = true
    · rw [runMigration_allOk_dup_char env st file v n stmts hout hdup]
      exact ⟨stmts, by simp, by intro s hs; simpa [this] using hs⟩
    · have hfresh : (versions st.ledger).contains v = false := by simpa using hdup
      rw [runMigration_allOk_char env st file v n stmts hout hfresh]
      exact ⟨stmts, by simp, by intro s hs; simpa [this] using hs⟩

theorem migrateLoop_traces (env : Env) (executed : List String) :
    ∀ (files : List String) (st : MigState),
      ∃ Δr Δe,
        (migrateLoop env executed st files).1.readTrace = st.readTrace ++ Δr ∧
        (migrateLoop env executed st files).1.execTrace = st.execTrace ++ Δe ∧
        Δr.Sublist files ∧
        (∀ x ∈ Δr, executed.contains (versionOf x) = false) ∧
        (∀ s ∈ Δe, ∃ g, g ∈ files ∧ executed.contains (versionOf g) = false ∧
          s ∈ stmtsOfFile env g) := by
  intro files
  induction files with
  | nil =>
    intro st
    exact ⟨[], [], by simp [migrateLoop], by simp [migrateLoop], by simp, by simp, by simp⟩
  | cons file rest ih =>
    intro st
    by_cases hsk : executed.contains (versionOf file) = true
    · rw [migrateLoop_cons_skip _ _ _ _ _ hsk]
      obtain ⟨Δr, Δe, h1, h2, h3, h4, h5⟩ := ih st
      exact ⟨Δr, Δe, h1, h2, h3.cons file, h4,
        fun s hs => by
          obtain ⟨g, hg1, hg2, hg3⟩ := h5 s hs
          exact ⟨g, by simp [hg1], hg2, hg3⟩⟩
    · have hskf : executed.contains (versionOf file) = false := by simpa using hsk
      rw [migrateLoop_cons_run _ _ _ _ _ hskf]
      rcases hrm : runMigration env st file (versionOf file) (nameOf file) with ⟨st1, r⟩
      have hrt : st1.readTrace = st.readTrace ++ [file] := by
        have := runMigration_readTrace env st file (versionOf file) (nameOf file)
        rw [hrm] at this
        exact this
      obtain ⟨Δe0, het, hmem⟩ := runMigration_execTrace env st file (versionOf file) (nameOf file)
      rw [hrm] at het
      rcases r with _ | e
      · obtain ⟨Δr, Δe, h1, h2, h3, h4, h5⟩ := ih st1
        refine ⟨file :: Δr, Δe0 ++ Δe, ?_, ?_, h3.cons₂ file, ?_, ?_⟩
        · rw [h1, hrt]; simp
        · rw [h2, het]; simp
        · intro x hx
          rcases List.mem_cons.mp hx with hx | hx
          · subst hx; exact hskf
          · exact h4 x hx
        · intro s hs
          rcases List.mem_append.mp hs with hs | hs
          · exact ⟨file, by simp, hskf, hmem s hs⟩
          · obtain ⟨g, hg1, hg2, hg3⟩ := h5 s hs
            exact ⟨g, by simp [hg1], hg2, hg3⟩
      · refine ⟨[file], Δe0, by simpa using hrt, by simpa using het,
          by simp, ?_, ?_⟩
        · intro x hx
          simp at hx
          subst hx
          exact hskf
        · intro s hs
          exact ⟨file, by simp, hskf, hmem s hs⟩

/-! ### Run-2-after-run-1 lemmas (claim C4) -/

theorem migrateLoop_skip_all (env : Env) (executed : List String) :
    ∀ (files : List String) (st : MigState),
      (∀ x ∈ files, executed.contains (versionOf x) = true) →
      migrateLoop env executed st files = (st, none) := by
  intro files
  induction files with
  | nil => intro st _; rfl
  | cons file rest ih =>
    intro st h
    rw [migrateLoop_cons_skip _ _ _ _ _ (h file (by simp))]
    exact ih st (fun x hx => h x (by simp [hx]))

theorem runMigration_pure_fail (env : Env) (st : MigState) (file v n : String)
    (h : scriptFailsPure env file = true) :
    ∃ e, (runMigration env st file v n).2 = some e ∧
      (runMigration env st file v n).1.ledger = st.ledger := by
  rcases hout : scriptOutcome env file with e0 | ⟨pre, bad, rest, e0⟩ | stmts
  · rw [runMigration_readErr_char env st file v n e0 hout]
    exact ⟨.fs e0, rfl, rfl⟩
  · rw [runMigration_stmtFail_char env st file v n pre bad rest e0 hout]
    exact ⟨.db e0, rfl, rfl⟩
  · simp [scriptFailsPure, hout] at h

theorem migrateLoop_skip_then_fail (env : Env) (executed : List String)
    (g : String) (b : List String)
    (hg : executed.contains (versionOf g) = false)
    (hgf : scriptFailsPure env g = true) :
    ∀ (a : List String) (st : MigState),
      (∀ x ∈ a, executed.contains (versionOf x) = true) →
      (migrateLoop env executed st (a ++ g :: b)).1.ledger = st.ledger := by
  intro a
  induction a with
  | nil =>
    intro st _
    rw [List.nil_append, migrateLoop_cons_run _ _ _ _ _ hg]
    rcases hrm : runMigration env st g (versionOf g) (nameOf g) with ⟨st1, r⟩
    obtain ⟨e, he, hl⟩ := runMigration_pure_fail env st g (versionOf g) (nameOf g) hgf
    rw [hrm] at he hl
    rcases r with _ | e1
    · cases he
    · exact hl
  | cons x a' ih =>
    intro st h
    rw [List.cons_append, migrateLoop_cons_skip _ _ _ _ _ (h x (by simp))]
    exact ih st (fun y hy => h y (by simp [hy]))

theorem migrateLoop_classify (env : Env) (snap : List String) :
    ∀ (files : List String) (st : MigState),
      (∀ v ∈ snap, v ∈ versions st.ledger) →
      (∀ g ∈ files, versionOf g ∈ versions st.ledger → versionOf g ∈ snap) →
      ((pendingOf snap files).map versionOf).Nodup →
      (∀ g ∈ files, versionOf g ∈ versions (migrateLoop env snap st files).1.ledger) ∨
      (∃ a g b, files = a ++ g :: b ∧
        (∀ x ∈ a, versionOf x ∈ versions (migrateLoop env snap st files).1.ledger) ∧
        scriptFailsPure env g = true ∧
        versionOf g ∉ versions (migrateLoop env snap st files).1.ledger) := by
  intro files
  induction files with
  | nil => intro st _ _ _; left; simp
  | cons file rest ih =>
    intro st hA hB hnd
    by_cases hsk : snap.contains (versionOf file) = true
    · have hskm : versionOf file ∈ snap := by simpa using hsk
      have hpend : pendingOf snap (file :: rest) = pendingOf snap rest := by
        simp [pendingOf, List.filter_cons, hskm]
      rw [hpend] at hnd
      rw [migrateLoop_cons_skip _ _ _ _ _ hsk]
      obtain ⟨Δ, hΔ⟩ := migrateLoop_ledger_mono env snap rest st
      have hfilemem : versionOf file ∈ versions (migrateLoop env snap st rest).1.ledger := by
        rw [hΔ, versions_append]
        exact List.mem_append.mpr (Or.inl (hA _ hskm))
      rcases ih st hA (fun g hg => hB g (by simp [hg])) hnd with hall | ⟨a, g, b, hd, ha, hp, hn⟩
      · left
        intro g hg
        rcases List.mem_cons.mp hg with hg | hg
        · subst hg; exact hfilemem
        · exact hall g hg
      · right
        exact ⟨file :: a, g, b, by simp [hd],
          fun x hx => by
            rcases List.mem_cons.mp hx with hx | hx
            · subst hx; exact hfilemem
            · exact ha x hx,
          hp, hn⟩
    · have hskf : snap.contains (versionOf file) = false := by simpa using hsk
      have hskm : versionOf file ∉ snap := by simpa using hskf
      have hpend : pendingOf snap (file :: rest) = file :: pendingOf snap rest := by
        simp [pendingOf, List.filter_cons, hskm]
      rw [hpend] at hnd
      have hfilenot : versionOf file ∉ versions st.ledger := by
        intro hmem
        exact hskm (hB file (by simp) hmem)
      rw [migrateLoop_cons_run _ _ _ _ _ hskf]
      rcases hout : scriptOutcome env file with e0 | ⟨sp, bd, rs, e0⟩ | stmts
      · rw [runMigration_readErr_char env st file (versionOf file) (nameOf file) e0 hout]
        right
        exact ⟨[], file, rest, by simp, by simp, by simp [scriptFailsPure, hout], hfilenot⟩
      · rw [runMigration_stmtFail_char env st file (versionOf file) (nameOf file) sp bd rs e0 hout]
        right
        exact ⟨[], file, rest, by simp, by simp, by simp [scriptFailsPure, hout], hfilenot⟩
      · have hfresh : (versions st.ledger).contains (versionOf file) = false := by
          simpa using hfilenot
        rw [runMigration_allOk_char env st file (versionOf file) (nameOf file) stmts hout hfresh]
        set st2 : MigState :=
          { st with
              readTrace := st.readTrace ++ [file]
              time := st.time + (env.readTime file + sumTimes env stmts)
              execTrace := st.execTrace ++ stmts
              ledger := st.ledger ++
                [⟨versionOf file, nameOf file,
                  env.readTime file + sumTimes env stmts, none⟩] } with hst2
      
        have hvst2 : versions st2.ledger = versions st.ledger ++ [versionOf file] := by
          rw [hst2]
          simp [versions]
        have hA2 : ∀ v ∈ snap, v ∈ versions st2.ledger := by
          intro v hv
          rw [hvst2]
          exact List.mem_append.mpr (Or.inl (hA v hv))
        have hB2 : ∀ g ∈ rest, versionOf g ∈ versions st2.ledger → versionOf g ∈ snap := by
          intro g hg hmem
          rw [hvst2] at hmem
          rcases List.mem_append.mp hmem with hmem | hmem
          · exact hB g (by simp [hg]) hmem
          · exfalso
            simp at hmem
            have hgpend : g ∈ pendingOf snap rest := by
              simp only [pendingOf, List.mem_filter]
              refine ⟨hg, ?_⟩
              simp [hmem, hskm]
            have : versionOf file ∈ (pendingOf snap rest).map versionOf := by
              rw [← hmem]
              exact List.mem_map_of_mem versionOf hgpend
            exact (List.nodup_cons.mp hnd).1 this
        obtain ⟨Δ, hΔ⟩ := migrateLoop_ledger_mono env snap rest st2
        have hfilemem : versionOf file ∈ versions (migrateLoop env snap st2 rest).1.ledger := by
          rw [hΔ, versions_append, hvst2]
          simp
        rcases ih st2 hA2 hB2 (List.nodup_cons.mp hnd).2 with hall | ⟨a, g, b, hd, ha, hp, hn⟩
        · left
          intro g hg
          rcases List.mem_cons.mp hg with hg | hg
          · subst hg; exact hfilemem
          · exact hall g hg
        · right
          exact ⟨file :: a, g, b, by simp [hd],
            fun x hx => by
              rcases List.mem_cons.mp hx with hx | hx
              · subst hx; exact hfilemem
              · exact ha x hx,
            hp, hn⟩

/-! ### Unfolding `migrate` on each initialization path -/

theorem migrate_eq_connect_err (env : Env) (st : MigState) (e : DbError)
    (hc : env.connectErr = some e) :
    migrate env st = (closeConn st, some (.db e)) := by
  simp [migrate, hc]

theorem migrate_eq_table_err (env : Env) (st : MigState) (e : DbError)
    (hc : env.connectErr = none) (hct : env.createTableErr = some e) :
    migrate env st = (closeConn st, some (.db e)) := by
  simp [migrate, hc, hct]

theorem migrate_eq_files_err (env : Env) (st : MigState) (e : FsError)
    (hc : env.connectErr = none) (hct : env.createTableErr = none)
    (hfs : getMigrationFiles env = .error e) :
    migrate env st = (closeConn st, some (.fs e)) := by
  simp [migrate, hc, hct, hfs]

theorem migrate_eq_ok (env : Env) (st : MigState) (files : List String)
    (hc : env.connectErr = none) (hct : env.createTableErr = none)
    (hfs : getMigrationFiles env = .ok files) :
    migrate env st =
      (closeConn (migrateLoop env (versions st.ledger) st files).1,
        (migrateLoop env (versions st.ledger) st files).2) := by
  simp [migrate, hc, hct, hfs]

/-! ### String lemmas for version derivation and authoring round trip -/

theorem sql_absorb : ∀ (c : Char) (cs : List Char),
    (['.','s','q','l'] : List Char).isPrefixOf (c :: cs ++ ['.','s','q','l']) = true →
    (['.','s','q','l'] : List Char).isPrefixOf (c :: cs) = true := by
  intro c cs h
  match cs with
  | [] => simp [List.isPrefixOf] at h
  | [c2] => simp [List.isPrefixOf] at h
  | [c2, c3] => simp [List.isPrefixOf] at h
  | c2 :: c3 :: c4 :: rest =>
    simp [List.isPrefixOf] at h ⊢
    exact ⟨h.1, h.2.1, h.2.2.1, h.2.2.2⟩

/-- Removing the first occurrence of `".sql"` from `l ++ ".sql"` yields `l`
when `".sql"` does not occur inside `l` (no occurrence can straddle the
boundary because `".sql"` has no nontrivial border). -/
theorem replaceFirst_append_sql : ∀ l : List Char,
    occursL ['.','s','q','l'] l = false →
    replaceFirstL ['.','s','q','l'] [] (l ++ ['.','s','q','l']) = l := by
  intro l
  induction l with
  | nil =>
    intro _
    simp [replaceFirstL, List.isPrefixOf]
  | cons c cs ih =>
    intro h
    simp only [occursL, Bool.or_eq_false_iff] at h
    simp only [List.cons_append, replaceFirstL, List.append_eq]
    split
    case isTrue hp =>
      exact absurd ((sql_absorb c cs hp).symm.trans h.1) (by decide)
    case isFalse hp =>
      rw [ih h.2]

/-- The code's version derivation strips the `".sql"` suffix exactly when
`".sql"` occurs nowhere inside the base name. -/
theorem versionOf_append_sql (b : String) (h : occursIn b ".sql" = false) :
    versionOf (b ++ ".sql") = b ∧ nameOf (b ++ ".sql") = underscoresToSpaces b := by
  have hdata : (b ++ ".sql").data = b.data ++ ['.','s','q','l'] := by
    rw [String.data_append]
  have hv : versionOf (b ++ ".sql") = b := by
    calc versionOf (b ++ ".sql")
        = String.mk (replaceFirstL ['.','s','q','l'] [] ((b ++ ".sql").data)) := rfl
      _ = String.mk (replaceFirstL ['.','s','q','l'] [] (b.data ++ ['.','s','q','l'])) := by
          rw [hdata]
      _ = String.mk b.data := by rw [replaceFirst_append_sql b.data h]
      _ = b := rfl
  refine ⟨hv, ?_⟩
  show underscoresToSpaces (versionOf (b ++ ".sql")) = underscoresToSpaces b
  rw [hv]

/-- Collapsing separator runs commutes with the authoring normalization
followed by the underscore-to-space reading: the flags record whether the
previously consumed character was whitespace (`pN`) resp. a separator
(`pC`); a whitespace predecessor is in particular a separator. -/
theorem canon_map_norm : ∀ (l : List Char) (pN pC : Bool),
    (pN = true → pC = true) →
    canonGo pC ((normWsGo pN l).map u2sChar) = canonGo pC l := by
  intro l
  induction l with
  | nil => intro pN pC _; cases pN <;> rfl
  | cons c cs ih =>
    intro pN pC himp
    by_cases hw : isWsChar c = true
    · have hsep : (isWsChar c || c = '_') = true := by simp [hw]
      cases pN with
      | true =>
        have hpC : pC = true := himp rfl
        subst hpC
        simp only [normWsGo, hw, if_true, if_pos]
        rw [ih true true (fun _ => rfl)]
        simp [canonGo, hsep, hw]
      | false =>
        simp only [normWsGo, hw, if_true, if_neg Bool.false_ne_true]
        simp only [List.map_cons]
        have hu : u2sChar '_' = ' ' := by decide
        rw [hu]
        have hsp : (isWsChar ' ' || ' ' = '_') = true := by decide
        cases pC with
        | true =>
          simp only [canonGo, hsp, hsep, if_true]
          exact ih true true (fun _ => rfl)
        | false =>
          simp only [canonGo, hsp, hsep, if_true, if_neg Bool.false_ne_true]
          rw [ih true true (fun _ => rfl)]
    · have hwf : isWsChar c = false := by simpa using hw
      by_cases hu : c = '_'
      · subst hu
        have hsep : (isWsChar '_' || '_' = '_') = true := by decide
        have hsp : (isWsChar ' ' || ' ' = '_') = true := by decide
        simp only [normWsGo, hwf, Bool.false_eq_true, if_false, List.map_cons]
        have huu : u2sChar '_' = ' ' := by decide
        rw [huu]
        cases pC with
        | true =>
          simp only [canonGo, hsp, hsep, if_true]
          exact ih false true (fun h => by cases h)
        | false =>
          simp only [canonGo, hsp, hsep, if_true, if_neg Bool.false_ne_true]
          rw [ih false true (fun h => by cases h)]
          simp
      · have hsep : (isWsChar c || c = '_') = false := by simp [hwf, hu]
        have huc : u2sChar c = c := by simp [u2sChar, hu]
        simp only [normWsGo, hwf, Bool.false_eq_true, if_false, List.map_cons, huc]
        simp only [canonGo, hsep, Bool.false_eq_true, if_false]
        rw [ih false false (fun h => by cases h)]

/-- Separator-insensitive round trip of the authoring normalization. -/
theorem canonName_round_trip (name : String) :
    canonName (underscoresToSpaces (normalizeWs name)) = canonName name :=
  congrArg String.mk (canon_map_norm name.data false false (fun h => h))

end Lemmas

/-! ## The claims -/

/-- C1: For every run of `migrate()` with a sequence of pending
change-scripts, if executing a statement of the i-th pending script fails,
the run aborts immediately: the read trace extends by exactly the earlier
pending scripts and the failing one (so no later pending script is loaded),
the statement trace extends by exactly their statements up to and including
the failing statement (so no later statement is executed), the ledger gains
entries for exactly the pending scripts completed before the i-th (and none
for the failing script), the failure report identifies the failing script's
version and name together with the underlying database error, and that
database error is the one surfaced to the caller. -/
theorem migrate_partial_failure_containment (env : Env) (st : MigState)
    (pre post : List String) (f : String)
    (sPre : List String) (bad : String) (sRest : List String) (e : DbError)
    (hc : env.connectErr = none) (hct : env.createTableErr = none)
    (hfiles : getMigrationFiles env = .ok (pre ++ f :: post))
    (hok : ∀ g ∈ pendingOf (versions st.ledger) pre, scriptOk env g = true)
    (hnd : ((pendingOf (versions st.ledger) pre).map versionOf).Nodup)
    (hf : (versions st.ledger).contains (versionOf f) = false)
    (hout : scriptOutcome env f = .stmtFail sPre bad sRest e) :
    (migrate env st).2 = some (.db e) ∧
    (migrate env st).1.ledger.map (fun en => (en.version, en.name)) =
      st.ledger.map (fun en => (en.version, en.name)) ++
        (pendingOf (versions st.ledger) pre).map entryVN ∧
    (migrate env st).1.readTrace =
      st.readTrace ++ pendingOf (versions st.ledger) pre ++ [f] ∧
    (migrate env st).1.execTrace =
      st.execTrace ++
        ((pendingOf (versions st.ledger) pre).map (stmtsOfFile env)).flatten ++
        sPre ++ [bad] ∧
    (migrate env st).1.log =
      st.log ++ [.migrationFailed (versionOf f) (nameOf f) (.db e)] ∧
    (migrate env st).1.closes = st.closes + 1 := by
  have hfresh : ∀ g ∈ pendingOf (versions st.ledger) pre,
      (versions st.ledger).contains (versionOf g) = false := by
    intro g hg
    simp only [pendingOf, List.mem_filter] at hg
    simpa using hg.2
  obtain ⟨c1, c2, c3, c4, c5⟩ :=
    migrateLoop_partial_fail env (versions st.ledger) f sPre bad sRest e hf hout
      pre post st hok hfresh hnd
  rw [migrate_eq_ok env st (pre ++ f :: post) hc hct hfiles]
  refine ⟨c1, c2, c3, c4, c5, ?_⟩
  show (migrateLoop env (versions st.ledger) st (pre ++ f :: post)).1.closes + 1 =
    st.closes + 1
  rw [migrateLoop_closes]

/-- Witness for C1 at `envFail`: of the three pending scripts a, b, c, the
middle statement of b fails; the run records exactly a's entry, reads only a
and b, executes only a's statement and b's statements up to the failure,
logs b's version and name with the error, rethrows the error, and closes
the connection once. -/
theorem migrate_partial_failure_containment_witness :
    (migrate envFail st0).2 = some (.db ⟨"syntax error"⟩) ∧
    (migrate envFail st0).1.ledger.map (fun en => (en.version, en.name)) =
      st0.ledger.map (fun en => (en.version, en.name)) ++
        (pendingOf (versions st0.ledger) ["20240101000000_a.sql"]).map entryVN ∧
    (migrate envFail st0).1.readTrace =
      st0.readTrace ++ pendingOf (versions st0.ledger) ["20240101000000_a.sql"] ++
        ["20240102000000_b.sql"] ∧
    (migrate envFail st0).1.execTrace =
      st0.execTrace ++
        ((pendingOf (versions st0.ledger) ["20240101000000_a.sql"]).map
          (stmtsOfFile envFail)).flatten ++ ["OK1"] ++ ["BOOM"] ∧
    (migrate envFail st0).1.log =
      st0.log ++ [.migrationFailed (versionOf "20240102000000_b.sql")
        (nameOf "20240102000000_b.sql") (.db ⟨"syntax error"⟩)] ∧
    (migrate envFail st0).1.closes = st0.closes + 1 :=
  migrate_partial_failure_containment envFail st0
    ["20240101000000_a.sql"] ["20240103000000_c.sql"] "20240102000000_b.sql"
    ["OK1"] "BOOM" ["NEVER"] ⟨"syntax error"⟩
    rfl rfl rfl (by decide) (by decide) (by decide) (by decide)

/-- C2, counterexample: the claim says the recorded entry's checksum is the
content hash of the script body, "not absent".  Running the single healthy
script of `envOne` records exactly one row — and its `checksum` column is
`none` (SQL NULL): the INSERT at migrate.js lines 76-81 supplies only
version, name and execution time, and no checksum is ever computed. -/
theorem checksum_absent_counterexample :
    (migrate envOne st0).1.ledger =
      [⟨"20240101000000_create_users", "20240101000000 create users", 12, none⟩] ∧
    (migrate envOne st0).1.ledger.map (fun en => en.checksum) = [none] := by
  constructor
  · rfl
  · rfl

/-- C2 as amended: on success of all statements the Runner records exactly
one ledger row carrying the script's version, its name, and the elapsed
wall-clock time (file read plus statement execution), but no checksum — the
checksum column is left NULL. -/
theorem runMigration_records_no_checksum (env : Env) (st : MigState)
    (file v n : String) (stmts : List String)
    (hout : scriptOutcome env file = .allOk stmts)
    (hfresh : (versions st.ledger).contains v = false) :
    (runMigration env st file v n).1.ledger =
      st.ledger ++ [⟨v, n, env.readTime file + sumTimes env stmts, none⟩] ∧
    (runMigration env st file v n).2 = none := by
  rw [runMigration_allOk_char env st file v n stmts hout hfresh]
  exact ⟨rfl, rfl⟩

/-- Witness for C2 (amended) at `envOne`: the recorded row has the derived
version and name, execution time 2 + 5 + 5 = 12 ms, and no checksum. -/
theorem runMigration_records_no_checksum_witness :
    (runMigration envOne st0 "20240101000000_create_users.sql"
      "20240101000000_create_users" "20240101000000 create users").1.ledger =
      st0.ledger ++ [⟨"20240101000000_create_users", "20240101000000 create users",
        envOne.readTime "20240101000000_create_users.sql" +
          sumTimes envOne ["CREATE TABLE users (id INT)", "INSERT INTO users VALUES (1)"],
        none⟩] ∧
    (runMigration envOne st0 "20240101000000_create_users.sql"
      "20240101000000_create_users" "20240101000000 create users").2 = none :=
  runMigration_records_no_checksum envOne st0 "20240101000000_create_users.sql"
    "20240101000000_create_users" "20240101000000 create users"
    ["CREATE TABLE users (id INT)", "INSERT INTO users VALUES (1)"]
    (by decide) (by decide)

/-- C6: on every exit path of a `migrate()` run — successful completion,
initialization failure, source read failure, or statement execution
failure — the database connection is released exactly once (the `finally`
block) before the result or error is returned. -/
theorem migrate_releases_connection_once (env : Env) (st : MigState) :
    (migrate env st).1.closes = st.closes + 1 := by
  rcases hc : env.connectErr with _ | e
  · rcases hct : env.createTableErr with _ | e
    · rcases hfs : getMigrationFiles env with e | files
      · rw [migrate_eq_files_err env st e hc hct hfs]; rfl
      · rw [migrate_eq_ok env st files hc hct hfs]
        show (migrateLoop env (versions st.ledger) st files).1.closes + 1 = st.closes + 1
        rw [migrateLoop_closes]
    · rw [migrate_eq_table_err env st e hc hct]; rfl
  · rw [migrate_eq_connect_err env st e hc]; rfl

/-- C7: evaluation of the CLI dispatch at the failing input.  With the
`migrate` command and a failing run, `.catch(console.error)` handles the
rejection, so the process exit code is 0 — contradicting the claimed
non-zero exit.  With `create` and no name, and with an unknown command, the
process does exit 1 as claimed. -/
theorem cli_exit_code_on_migrate_failure :
    cliExitCode (some "migrate") none true false = 0 ∧
    cliExitCode (some "create") none false false = 1 ∧
    cliExitCode (some "bogus") none false false = 1 := by
  exact ⟨rfl, rfl, rfl⟩

/-- C3, counterexample: the claim says pending scripts are applied in
ascending lexicographic order of their *version strings*.  With files
`a!.sql` and `a.sql`, the Runner sorts by full file name, so `a!.sql` runs
first; but its derived version `a!` is lexicographically *greater* than
`a` (`"a"` is a proper prefix of `"a!"`), so the recorded application order
`["a!", "a"]` is strictly descending in version order. -/
theorem version_order_counterexample :
    (migrate envBang st0).1.ledger.map (fun en => en.version) = ["a!", "a"] ∧
    versionOf "a!.sql" = "a!" ∧ versionOf "a.sql" = "a" ∧
    strLe "a" "a!" = true ∧ ("a" : String) ≠ "a!" :=
  ⟨rfl, rfl, rfl, by decide, by decide⟩

/-- C3 as amended: for every set of script files, in every order the
filesystem enumerates them, the Runner discovers the same sorted list and
behaves identically (the whole run result is invariant under permuting the
directory listing), and it applies the pending scripts in ascending
lexicographic order of their *file names* — which coincides with version
order for conventionally named files such as the spec's
`20240101000000_a` / `20240102000000_b` / `20240103000000_c` example, but
not in general (see the counterexample). -/
theorem migrate_filename_order (env env2 : Env) (st : MigState)
    (l l2 : List String)
    (h1 : env2.connectErr = env.connectErr)
    (h2 : env2.createTableErr = env.createTableErr)
    (h3 : env2.mkdirErr = env.mkdirErr)
    (h4 : env2.readFile = env.readFile)
    (h5 : env2.readTime = env.readTime)
    (h6 : env2.stmtTime = env.stmtTime)
    (h7 : env2.execStmt = env.execStmt)
    (hl : env.readdirResult = .ok l)
    (hl2 : env2.readdirResult = .ok l2)
    (hperm : l.Perm l2) :
    migrate env2 st = migrate env st ∧
    getMigrationFiles env = .ok (jsSort (l.filter (fun f => jsEndsWith f ".sql"))) ∧
    List.Sorted strLeR (jsSort (l.filter (fun f => jsEndsWith f ".sql"))) ∧
    ∃ Δ, (migrate env st).1.readTrace = st.readTrace ++ Δ ∧ List.Sorted strLeR Δ := by
  have hgf : getMigrationFiles env2 = getMigrationFiles env :=
    getMigrationFiles_congr env env2 l l2 h3 hl hl2 hperm
  have hfs : getMigrationFiles env =
      .ok (jsSort (l.filter (fun f => jsEndsWith f ".sql"))) := by
    simp [getMigrationFiles, hl]
  refine ⟨?_, hfs, jsSort_sorted _, ?_⟩
  · rcases hc : env.connectErr with _ | e
    · rcases hct : env.createTableErr with _ | e
      · rcases hgfe : getMigrationFiles env with e | files
        · rw [migrate_eq_files_err env st e hc hct hgfe,
            migrate_eq_files_err env2 st e (h1.trans hc) (h2.trans hct) (hgf.trans hgfe)]
        · rw [migrate_eq_ok env st files hc hct hgfe,
            migrate_eq_ok env2 st files (h1.trans hc) (h2.trans hct) (hgf.trans hgfe),
            migrateLoop_congr env env2 h4 h5 h6 h7]
      · rw [migrate_eq_table_err env st e hc hct,
          migrate_eq_table_err env2 st e (h1.trans hc) (h2.trans hct)]
    · rw [migrate_eq_connect_err env st e hc,
        migrate_eq_connect_err env2 st e (h1.trans hc)]
  · rcases hc : env.connectErr with _ | e
    · rcases hct : env.createTableErr with _ | e
      · rw [migrate_eq_ok env st _ hc hct hfs]
        obtain ⟨Δr, Δe, hr, _, hsub, _, _⟩ :=
          migrateLoop_traces env (versions st.ledger)
            (jsSort (l.filter (fun f => jsEndsWith f ".sql"))) st
        exact ⟨Δr, hr, List.Pairwise.sublist hsub (jsSort_sorted _)⟩
      · rw [migrate_eq_table_err env st e hc hct]
        exact ⟨[], by simp [closeConn], List.sorted_nil⟩
    · rw [migrate_eq_connect_err env st e hc]
      exact ⟨[], by simp [closeConn], List.sorted_nil⟩

/-- Witness for C3 (amended) at `envOk` / `envOkPerm`: the same three
conventionally named scripts enumerated in two different orders produce the
identical run, the discovered list is sorted, and the read trace (the
application order a, b, c) is sorted by file name. -/
theorem migrate_filename_order_witness :
    migrate envOkPerm st0 = migrate envOk st0 ∧
    getMigrationFiles envOk =
      .ok (jsSort ((["20240103000000_c.sql", "20240101000000_a.sql",
        "20240102000000_b.sql"]).filter (fun f => jsEndsWith f ".sql"))) ∧
    List.Sorted strLeR (jsSort ((["20240103000000_c.sql", "20240101000000_a.sql",
      "20240102000000_b.sql"]).filter (fun f => jsEndsWith f ".sql"))) ∧
    ∃ Δ, (migrate envOk st0).1.readTrace = st0.readTrace ++ Δ ∧
      List.Sorted strLeR Δ :=
  migrate_filename_order envOk envOkPerm st0
    ["20240103000000_c.sql", "20240101000000_a.sql", "20240102000000_b.sql"]
    ["20240101000000_a.sql", "20240102000000_b.sql", "20240103000000_c.sql"]
    rfl rfl rfl rfl rfl rfl rfl rfl rfl (by decide)

/-- C4: running `migrate()` twice in succession against an unchanged Source
(same environment; the spec's Source invariant — versions unique across the
Source — is the `Nodup` hypothesis) leaves the Ledger after the second run
identical to the Ledger after the first: the second run records nothing
new.  This holds whether the first run succeeded or failed. -/
theorem migrate_idempotent (env : Env) (st : MigState)
    (hnd : ∀ fs, getMigrationFiles env = .ok fs → (fs.map versionOf).Nodup) :
    (migrate env (migrate env st).1).1.ledger = (migrate env st).1.ledger := by
  rcases hc : env.connectErr with _ | e
  · rcases hct : env.createTableErr with _ | e
    · rcases hfs : getMigrationFiles env with e | files
      · rw [migrate_eq_files_err env st e hc hct hfs]
        show (migrate env (closeConn st)).1.ledger = (closeConn st).ledger
        rw [migrate_eq_files_err env (closeConn st) e hc hct hfs]
        rfl
      · rw [migrate_eq_ok env st files hc hct hfs]
        show (migrate env
            (closeConn (migrateLoop env (versions st.ledger) st files).1)).1.ledger =
          (closeConn (migrateLoop env (versions st.ledger) st files).1).ledger
        rw [migrate_eq_ok env
          (closeConn (migrateLoop env (versions st.ledger) st files).1) files hc hct hfs]
        show (migrateLoop env
            (versions (migrateLoop env (versions st.ledger) st files).1.ledger)
            (closeConn (migrateLoop env (versions st.ledger) st files).1) files).1.ledger =
          (migrateLoop env (versions st.ledger) st files).1.ledger
        have hnd2 : ((pendingOf (versions st.ledger) files).map versionOf).Nodup := by
          have hsub : List.Sublist
              ((pendingOf (versions st.ledger) files).map versionOf)
              (files.map versionOf) :=
            (List.filter_sublist files).map versionOf
          exact (hnd files hfs).sublist hsub
        rcases migrateLoop_classify env (versions st.ledger) files st
            (fun v hv => hv) (fun g _ hm => hm) hnd2 with
          hall | ⟨a, g, b, hdec, ha, hpure, hnot⟩
        · have hskip : ∀ x ∈ files,
              (versions (migrateLoop env (versions st.ledger) st files).1.ledger).contains
                (versionOf x) = true := by
            intro x hx
            simpa using hall x hx
          rw [migrateLoop_skip_all env _ files _ hskip]
          rfl
        · subst hdec
          have ha2 : ∀ x ∈ a,
              (versions (migrateLoop env (versions st.ledger) st (a ++ g :: b)).1.ledger).contains
                (versionOf x) = true := by
            intro x hx
            simpa using ha x hx
          have hg2 : (versions
              (migrateLoop env (versions st.ledger) st (a ++ g :: b)).1.ledger).contains
                (versionOf g) = false := by
            simpa using hnot
          exact migrateLoop_skip_then_fail env _ g b hg2 hpure a
            (closeConn (migrateLoop env (versions st.ledger) st (a ++ g :: b)).1) ha2
    · rw [migrate_eq_table_err env st e hc hct]
      show (migrate env (closeConn st)).1.ledger = (closeConn st).ledger
      rw [migrate_eq_table_err env (closeConn st) e hc hct]
      rfl
  · rw [migrate_eq_connect_err env st e hc]
    show (migrate env (closeConn st)).1.ledger = (closeConn st).ledger
    rw [migrate_eq_connect_err env (closeConn st) e hc]
    rfl

/-- Witness for C4 at `envOk`: a second run over the same three scripts
leaves the ledger exactly as the first run left it. -/
theorem migrate_idempotent_witness :
    (migrate envOk (migrate envOk st0).1).1.ledger = (migrate envOk st0).1.ledger :=
  migrate_idempotent envOk st0 (by
    intro fs hfs
    rw [show getMigrationFiles envOk = Except.ok ["20240101000000_a.sql",
      "20240102000000_b.sql", "20240103000000_c.sql"] from rfl] at hfs
    injection hfs with h3
    subst h3
    decide)

/-- C5: a version already present in the Ledger and also present in the
Source is excluded from the pending set, its file is never loaded, and
every statement the run executes comes from a script whose version was
*not* in the Ledger — so the already-applied script's statements are never
re-executed, regardless of what its file now contains. -/
theorem migrate_no_reapply (env : Env) (st : MigState) (f : String)
    (hmem : (versions st.ledger).contains (versionOf f) = true) :
    f ∉ pendingSet env st ∧
    ∃ Δr Δe, (migrate env st).1.readTrace = st.readTrace ++ Δr ∧ f ∉ Δr ∧
      (migrate env st).1.execTrace = st.execTrace ++ Δe ∧
      ∀ s ∈ Δe, ∃ g, (versions st.ledger).contains (versionOf g) = false ∧
        versionOf g ≠ versionOf f ∧ s ∈ stmtsOfFile env g := by
  constructor
  · intro hf
    rcases hgf : getMigrationFiles env with e | files
    · simp [pendingSet, hgf] at hf
    · simp only [pendingSet, hgf, List.mem_filter] at hf
      have h2 := hf.2
      simp [hmem] at h2
      exact h2 (by simpa using hmem)
  · rcases hc : env.connectErr with _ | e
    · rcases hct : env.createTableErr with _ | e
      · rcases hgf : getMigrationFiles env with e | files
        · rw [migrate_eq_files_err env st e hc hct hgf]
          exact ⟨[], [], by simp [closeConn], by simp, by simp [closeConn], by simp⟩
        · rw [migrate_eq_ok env st files hc hct hgf]
          obtain ⟨Δr, Δe, hr, he, _, hpend, hstmt⟩ :=
            migrateLoop_traces env (versions st.ledger) files st
          refine ⟨Δr, Δe, hr, ?_, he, ?_⟩
          · intro hfΔ
            exact absurd (hmem.symm.trans (hpend f hfΔ)) (by decide)
          · intro s hs
            obtain ⟨g, _, hg2, hg3⟩ := hstmt s hs
            refine ⟨g, hg2, ?_, hg3⟩
            intro hveq
            rw [hveq] at hg2
            exact absurd (hmem.symm.trans hg2) (by decide)
      · rw [migrate_eq_table_err env st e hc hct]
        exact ⟨[], [], by simp [closeConn], by simp, by simp [closeConn], by simp⟩
    · rw [migrate_eq_connect_err env st e hc]
      exact ⟨[], [], by simp [closeConn], by simp, by simp [closeConn], by simp⟩

/-- Witness for C5 at `envOne` / `stApplied`: the single script's version is
already in the ledger, so the file is excluded from the pending set and
never read, and no statement of the run comes from a same-version script. -/
theorem migrate_no_reapply_witness :
    "20240101000000_create_users.sql" ∉ pendingSet envOne stApplied ∧
    ∃ Δr Δe, (migrate envOne stApplied).1.readTrace = stApplied.readTrace ++ Δr ∧
      "20240101000000_create_users.sql" ∉ Δr ∧
      (migrate envOne stApplied).1.execTrace = stApplied.execTrace ++ Δe ∧
      ∀ s ∈ Δe, ∃ g, (versions stApplied.ledger).contains (versionOf g) = false ∧
        versionOf g ≠ versionOf "20240101000000_create_users.sql" ∧
        s ∈ stmtsOfFile envOne g :=
  migrate_no_reapply envOne stApplied "20240101000000_create_users.sql" (by decide)

/-- C8, counterexample: the claim says the derived version equals the file
name with its extension removed, for every name passing the suffix filter,
including names with `".sql"` in the middle.  The file `a.sqlb.sql` passes
the filter, but `file.replace('.sql', '')` removes the *first* occurrence,
yielding `ab.sql` — not `a.sqlb`, the name with its extension removed. -/
theorem version_extension_counterexample :
    jsEndsWith "a.sqlb.sql" ".sql" = true ∧
    versionOf "a.sqlb.sql" = "ab.sql" ∧
    stripExtension "a.sqlb.sql" = "a.sqlb" ∧
    versionOf "a.sqlb.sql" ≠ stripExtension "a.sqlb.sql" := by
  refine ⟨by decide, by decide, by decide, by decide⟩

/-- C8 as amended: the derived version is the file name with the *first*
occurrence of `".sql"` removed — which coincides with stripping the
extension exactly when `".sql"` occurs nowhere inside the base name — and
the derived name is always the derived version with every underscore
replaced by a space. -/
theorem version_name_derivation (b : String) (h : occursIn b ".sql" = false) :
    versionOf (b ++ ".sql") = b ∧
    nameOf (b ++ ".sql") = underscoresToSpaces b ∧
    ∀ f : String, nameOf f = underscoresToSpaces (versionOf f) := by
  obtain ⟨h1, h2⟩ := versionOf_append_sql b h
  exact ⟨h1, h2, fun f => rfl⟩

/-- Witness for C8 (amended) at a conventional migration file name. -/
theorem version_name_derivation_witness :
    versionOf ("20240101000000_add_users" ++ ".sql") = "20240101000000_add_users" ∧
    nameOf ("20240101000000_add_users" ++ ".sql") =
      underscoresToSpaces "20240101000000_add_users" ∧
    ∀ f : String, nameOf f = underscoresToSpaces (versionOf f) :=
  version_name_derivation "20240101000000_add_users" (by decide)

/-- C9: for every input name and every well-formed clock reading (an ISO
string containing at least 14 digits), `createMigration` produces a file
name that is a 14-digit all-numeric timestamp (the ISO digits truncated to
seconds precision), a separator, the input name with every whitespace run
replaced by the separator, and the script suffix; and stripping the version
prefix and mapping separators back to spaces recovers a name equivalent to
the input, where two names are equivalent when they agree after collapsing
every run of whitespace and underscores to a single separator. -/
theorem createMigration_round_trip (iso name : String)
    (hiso : 14 ≤ (iso.data.filter Char.isDigit).length) :
    (timestampOf iso).length = 14 ∧
    (timestampOf iso).data.all Char.isDigit = true ∧
    createMigrationFileName iso name =
      timestampOf iso ++ "_" ++ normalizeWs name ++ ".sql" ∧
    canonName (underscoresToSpaces (normalizeWs name)) = canonName name := by
  refine ⟨?_, ?_, rfl, canonName_round_trip name⟩
  · show ((iso.data.filter Char.isDigit).take 14).length = 14
    rw [List.length_take]
    omega
  · rw [List.all_eq_true]
    intro c hc
    exact List.of_mem_filter (List.take_subset _ _ hc)

/-- Witness for C9 at a concrete clock reading and a name containing a
double space and an underscore. -/
theorem createMigration_round_trip_witness :
    (timestampOf "2024-01-02T03:04:05.678Z").length = 14 ∧
    (timestampOf "2024-01-02T03:04:05.678Z").data.all Char.isDigit = true ∧
    createMigrationFileName "2024-01-02T03:04:05.678Z" "add  trades_x table" =
      timestampOf "2024-01-02T03:04:05.678Z" ++ "_" ++
        normalizeWs "add  trades_x table" ++ ".sql" ∧
    canonName (underscoresToSpaces (normalizeWs "add  trades_x table")) =
      canonName "add  trades_x table" :=
  createMigration_round_trip "2024-01-02T03:04:05.678Z" "add  trades_x table"
    (by decide)

/-- C10, counterexample: the claim says that for *every* listing failure
`migrate()` completes successfully having applied zero scripts.  Under a
permission error, the fallback `fs.mkdir` typically fails too, and that
error escapes the catch block: the run fails (with the mkdir error), so it
does not complete successfully. -/
theorem mkdir_failure_counterexample :
    envNoPerm.readdirResult = .error ⟨"EACCES: permission denied, scandir"⟩ ∧
    (migrate envNoPerm st0).2 = some (.fs ⟨"EACCES: permission denied, mkdir"⟩) :=
  ⟨rfl, rfl⟩

/-- C10 as amended: on any listing failure `getMigrationFiles` swallows the
listing error and attempts to create the migrations directory.  When that
creation succeeds it returns the empty sequence and `migrate()` completes
successfully with zero scripts discovered or applied, never surfacing the
listing error; when the creation itself fails, the run fails with the
*mkdir* error (still not the listing error). -/
theorem migrate_listing_error (env : Env) (st : MigState) (eDir : FsError)
    (hc : env.connectErr = none) (hct : env.createTableErr = none)
    (hrd : env.readdirResult = .error eDir) :
    (env.mkdirErr = none →
      getMigrationFiles env = .ok [] ∧ migrate env st = (closeConn st, none)) ∧
    (∀ m, env.mkdirErr = some m →
      migrate env st = (closeConn st, some (.fs m))) := by
  constructor
  · intro hmk
    have hgf : getMigrationFiles env = .ok [] := by
      simp [getMigrationFiles, hrd, hmk]
    refine ⟨hgf, ?_⟩
    rw [migrate_eq_ok env st [] hc hct hgf]
    rfl
  · intro m hmk
    have hgf : getMigrationFiles env = .error m := by
      simp [getMigrationFiles, hrd, hmk]
    exact migrate_eq_files_err env st m hc hct hgf

/-- Witness for C10 (amended) at `envNoDir`: the directory is absent, the
fallback mkdir succeeds, and the run completes successfully with zero
scripts. -/
theorem migrate_listing_error_witness :
    (envNoDir.mkdirErr = none →
      getMigrationFiles envNoDir = .ok [] ∧
      migrate envNoDir st0 = (closeConn st0, none)) ∧
    (∀ m, envNoDir.mkdirErr = some m →
      migrate envNoDir st0 = (closeConn st0, some (.fs m))) :=
  migrate_listing_error envNoDir st0 ⟨"ENOENT: no such file or directory, scandir"⟩
    rfl rfl rfl

end Agni
